import Mathlib

/-
Verification of the dagger_rocker extension engine (src/dagger_rocker/core.py,
cli.py): extension registry, activation resolver with dependency closure,
depth-first topological scheduler with cycle detection, and the two-phase
(validate, then mutate) pipeline runner.

The embedding mirrors the Python source.  Python dicts are insertion ordered,
so `Dict[str, Extension]` values are modelled as `List (Extension Opt)` whose `name`
fields play the role of the keys (registration always uses
`extension.get_name()` as the key, so key and `name` field coincide).  The
option namespace `args` is an abstract type parameter `Opt`; each extension
carries its `check_args_for_activation` predicate as a function `Opt → Bool`.
-/

set_option maxHeartbeats 1000000

/-- Extension descriptor, mirroring `DaggerRockerExtension` (core.py lines
14-47): `name` is `get_name()`, `activate` is `check_args_for_activation`,
`deps` is `get_dependencies()`, `hints` is `get_load_order_hints()`, and
`validate` is `validate_environment` (which either returns or raises; raising
is modelled as `Except.error` with the exception message). -/
structure Extension (Opt : Type) where
  name : String
  activate : Opt → Bool
  deps : List String
  hints : List String
  validate : Opt → Except String Unit

/-- `n in d` for a dict keyed by extension names (keys equal `name` fields). -/
def hasName {Opt : Type} (l : List (Extension Opt)) (n : String) : Bool :=
  l.any (fun e => e.name == n)

/-- `d[n]` lookup for a dict keyed by extension names. -/
def findExt {Opt : Type} (l : List (Extension Opt)) (n : String) : Option (Extension Opt) :=
  l.find? (fun e => e.name == n)

/-- Dict assignment `d[k] = v` on an existing key keeps the key's position and
replaces the value. -/
def replaceByName {Opt : Type} : List (Extension Opt) → Extension Opt → List (Extension Opt)
  | [], _ => []
  | x :: rest, e => if x.name == e.name then e :: rest else x :: replaceByName rest e

/-- `DaggerRockerCore.register_extension` (core.py lines 57-59):
`self.extensions[extension.get_name()] = extension`, i.e. plain dict
assignment — an existing name is silently overwritten, no error is raised. -/
def registerExtension {Opt : Type} (reg : List (Extension Opt)) (e : Extension Opt) : List (Extension Opt) :=
  if hasName reg e.name then replaceByName reg e else reg ++ [e]

/-- The seed of the active set (core.py lines 65-68): every registered
extension whose activation predicate returns true, in registry order. -/
def seedExtensions {Opt : Type} (reg : List (Extension Opt)) (opt : Opt) : List (Extension Opt) :=
  reg.filter (fun e => e.activate opt)

/-- One dependency name inside the expansion scan (core.py lines 75-78):
`if dep_name not in active and dep_name in self.extensions: active[dep_name] =
self.extensions[dep_name]; changed = True`. -/
def depStep {Opt : Type} (reg : List (Extension Opt)) (st : List (Extension Opt) × Bool) (d : String) :
    List (Extension Opt) × Bool :=
  if hasName st.1 d then st
  else
    match findExt reg d with
    | some e => (st.1 ++ [e], true)
    | none => st

/-- Scanning one active extension's dependency set (core.py line 75). -/
def extStep {Opt : Type} (reg : List (Extension Opt)) (st : List (Extension Opt) × Bool) (e : Extension Opt) :
    List (Extension Opt) × Bool :=
  e.deps.foldl (depStep reg) st

/-- One full scan of the active set (core.py lines 73-78).  The iteration runs
over a snapshot (`list(active.items())`) while the membership test sees the
growing dict, exactly as the Python does. -/
def expandPass {Opt : Type} (reg active : List (Extension Opt)) : List (Extension Opt) × Bool :=
  active.foldl (extStep reg) (active, false)

/-- The `while changed` loop (core.py lines 71-78), with a fuel bound.  The
Python loop is unbounded; `reg.length + 1` passes provably always reach the
fixpoint (every changing pass strictly grows the active set, which stays
inside the registry), so the fuel-exhausted branch is unreachable. -/
def expandLoop {Opt : Type} (reg : List (Extension Opt)) : Nat → List (Extension Opt) → List (Extension Opt)
  | 0, active => active
  | fuel + 1, active =>
    let p := expandPass reg active
    if p.2 then expandLoop reg fuel p.1 else p.1

/-- The unordered active set computed by `get_active_extensions` before
sorting (core.py lines 61-78): predicate seed plus dependency closure. -/
def activeSet {Opt : Type} (reg : List (Extension Opt)) (opt : Opt) : List (Extension Opt) :=
  expandLoop reg (reg.length + 1) (seedExtensions reg opt)

/-- Errors of `_sort_extensions`.  `cyclic n` is the
`ValueError(f"Circular dependency detected involving {name}")` of core.py
line 93; `fuelExhausted` is an artifact of the fuel-bounded embedding of the
recursion and is proved unreachable. -/
inductive SortErr where
  | cyclic (name : String)
  | fuelExhausted
  deriving DecidableEq

/-- The mutable state of `topological_sort` (core.py lines 87-89): the
`visited` set, the `temp_visited` set (kept as the DFS path, oldest first;
only membership is ever tested), and the `result` list. -/
structure SortState (Opt : Type) where
  visited : List String
  temp : List String
  result : List (Extension Opt)

/-- The load-order hints of `items[n]` that pass the `if dep in items` guard
(core.py lines 98-102); `[]` when `n` is not an item key. -/
def activeHints {Opt : Type} (items : List (Extension Opt)) (n : String) : List String :=
  match findExt items n with
  | some e => e.hints.filter (fun d => hasName items d)
  | none => []

/-- `[items[n]]` when `n` is an item key, else `[]` (guard of core.py
line 106). -/
def extOf {Opt : Type} (items : List (Extension Opt)) (n : String) : List (Extension Opt) :=
  match findExt items n with
  | some e => [e]
  | none => []

/-- `visit(name)` of core.py lines 91-107.  `fuel` bounds the recursion depth
(the Python call stack); it is proved sufficient whenever it exceeds the
number of items not yet on the path.  The recursion over the hinted
predecessors (lines 100-102) is the monadic fold over `activeHints`. -/
def visitOne {Opt : Type} (items : List (Extension Opt)) : Nat → String → SortState Opt →
    Except SortErr (SortState Opt)
  | fuel, name, st =>
    if name ∈ st.temp then Except.error (SortErr.cyclic name)
    else if name ∈ st.visited then Except.ok st
    else
      match fuel with
      | 0 => Except.error SortErr.fuelExhausted
      | fuel + 1 =>
        match (activeHints items name).foldlM (fun s d => visitOne items fuel d s)
            { st with temp := st.temp ++ [name] } with
        | Except.error e => Except.error e
        | Except.ok st2 =>
          Except.ok { visited := st2.visited ++ [name],
                      temp := st2.temp.erase name,
                      result := st2.result ++ extOf items name }

/-- Visiting a list of names in order, threading the sort state (used both
for the hint recursion and for the top-level `for name in items` loop of
core.py lines 109-110). -/
def visitList {Opt : Type} (items : List (Extension Opt)) (fuel : Nat) (l : List String)
    (st : SortState Opt) : Except SortErr (SortState Opt) :=
  l.foldlM (fun s d => visitOne items fuel d s) st

/-- `DaggerRockerCore._sort_extensions` (core.py lines 83-114): run `visit`
over every item key starting from empty state and return the result list. -/
def sortExtensions {Opt : Type} (items : List (Extension Opt)) : Except SortErr (List (Extension Opt)) :=
  match visitList items (items.length + 1) (items.map Extension.name) ⟨[], [], []⟩ with
  | Except.error e => Except.error e
  | Except.ok st => Except.ok st.result

/-- `DaggerRockerCore.get_active_extensions` (core.py lines 61-81): build the
active set, then sort it by load-order hints. -/
def getActiveExtensions {Opt : Type} (reg : List (Extension Opt)) (opt : Opt) :
    Except SortErr (List (Extension Opt)) :=
  sortExtensions (activeSet reg opt)

/-- Observable actions of the pipeline, in the order they are performed:
`validate n` is a call of extension `n`'s `validate_environment`; `report` is
the `Active extensions: [...]` print; `reportOrder` is the dry-run enumeration
of the resolved order (cli.py lines 106-108); `fromImage` is the construction
of the base build request (`client.container().from_(image)`); `mutate n` is
the application of extension `n`'s `setup_container`; `exec c` is the backend
execution of command `c`. -/
inductive Event where
  | validate (name : String)
  | report (names : List String)
  | reportOrder (names : List String)
  | fromImage (image : String)
  | mutate (name : String)
  | exec (command : List String)
  deriving DecidableEq

/-- The validation loop (core.py lines 142-143): call each active extension's
`validate_environment` in list order; the first raise aborts, propagating its
message. Returns the trace of validation calls made and the error, if any. -/
def validateAll {Opt : Type} (opt : Opt) : List (Extension Opt) → List Event × Option String
  | [] => ([], none)
  | e :: rest =>
    match e.validate opt with
    | Except.error msg => ([Event.validate e.name], some msg)
    | Except.ok _ =>
      let r := validateAll opt rest
      (Event.validate e.name :: r.1, r.2)

/-- The command `core.run` executes when no command is given (core.py
line 159): `/bin/bash -c "echo 'No command specified'"`. -/
def defaultRunCommand : List String := ["/bin/bash", "-c", "echo \x27No command specified\x27"]

/-- The command `core.build_and_run` executes when no command is given
(core.py line 132): a bare `/bin/bash` exec. -/
def defaultShellCommand : List String := ["/bin/bash"]

/-- Message carried by a scheduler failure (core.py line 93). -/
def sortErrMessage : SortErr → String
  | SortErr.cyclic n => "Circular dependency detected involving " ++ n
  | SortErr.fuelExhausted => "unreachable"

/-- `DaggerRockerCore.run` (core.py lines 136-160): resolve the active
extensions (which may raise the circular-ordering error), validate each in
list order aborting on the first failure, then connect, build the base
request from the image, apply each extension's mutation in order, and execute
the command (or the default echo command when none was given).  The returned
pair is the trace of observable actions and the propagated error, if any. -/
def coreRun {Opt : Type} (reg : List (Extension Opt)) (opt : Opt) (image : String)
    (command : List String) : List Event × Option String :=
  match getActiveExtensions reg opt with
  | Except.error e => ([], some (sortErrMessage e))
  | Except.ok order =>
    let v := validateAll opt order
    match v.2 with
    | some m => (v.1, some m)
    | none =>
      (v.1 ++ [Event.fromImage image]
        ++ order.map (fun e => Event.mutate e.name)
        ++ [Event.exec (if command.isEmpty then defaultRunCommand else command)], none)

/-- `DaggerRockerCore.build_and_run` (core.py lines 116-134): build the base
request, apply the already-computed active extensions in order, and execute
the command, defaulting to a bare `/bin/bash` exec. -/
def buildAndRun {Opt : Type} (active : List (Extension Opt)) (image : String)
    (command : List String) : List Event :=
  [Event.fromImage image]
    ++ active.map (fun e => Event.mutate e.name)
    ++ [Event.exec (if command.isEmpty then defaultShellCommand else command)]

/-- The `main` of cli.py (lines 51-118): resolve (printing the resolved order
as `report`), validate all active extensions aborting on the first failure,
then either stop in dry-run mode after printing the order enumeration
(`reportOrder`, lines 100-109) or call `core.run` (line 113). -/
def cliMain {Opt : Type} (reg : List (Extension Opt)) (opt : Opt) (image : String)
    (command : List String) (dryRun : Bool) : List Event × Option String :=
  match getActiveExtensions reg opt with
  | Except.error e => ([], some (sortErrMessage e))
  | Except.ok order =>
    let rep := Event.report (order.map Extension.name)
    let v := validateAll opt order
    match v.2 with
    | some m => (rep :: v.1, some m)
    | none =>
      if dryRun then
        (rep :: v.1 ++ [Event.reportOrder (order.map Extension.name)], none)
      else
        let r := coreRun reg opt image command
        (rep :: v.1 ++ r.1, r.2)

/-- Ordering-hint edge of the active set `items`: `hintEdge items a b` holds
when `b` is a hinted predecessor of `a` and both are active (`b` must appear
before `a`). -/
def hintEdge {Opt : Type} (items : List (Extension Opt)) (a b : String) : Prop :=
  b ∈ activeHints items a

/-- The scheduler's output ordering invariant: reading `l` left to right with
`placed` the names already emitted, every active hinted predecessor of each
element was already emitted. -/
def OrderedA {Opt : Type} (items : List (Extension Opt)) : List String → List (Extension Opt) → Prop
  | _, [] => True
  | placed, e :: rest =>
    (∀ p ∈ e.hints, hasName items p = true → p ∈ placed) ∧
      OrderedA items (placed ++ [e.name]) rest

/-- Reachability used by claim C10: an extension is reachable when it is
predicate-activated, or is a registered dependency of a reachable one. -/
inductive DepReach {Opt : Type} (reg : List (Extension Opt)) (opt : Opt) : Extension Opt → Prop
  | seed (e : Extension Opt) : e ∈ reg → e.activate opt = true → DepReach reg opt e
  | step (a e : Extension Opt) (d : String) :
      DepReach reg opt a → d ∈ a.deps → e ∈ reg → e.name = d → DepReach reg opt e

/-- A minimal always-on extension (like `BasicExtension`), for witnesses. -/
def basicExt : Extension (List String) :=
  ⟨"basic", fun _ => true, [], [], fun _ => Except.ok ()⟩

/-- Witness extension named "a" with no hints. -/
def wA : Extension Unit := ⟨"a", fun _ => true, [], [], fun _ => Except.ok ()⟩

/-- Witness extension named "b" with no hints. -/
def wB : Extension Unit := ⟨"b", fun _ => true, [], [], fun _ => Except.ok ()⟩

/-- Witness extension named "a" hinting that "b" must come first. -/
def mA : Extension Unit := ⟨"a", fun _ => true, [], ["b"], fun _ => Except.ok ()⟩

/-- Witness extension named "b" hinting that "a" must come first. -/
def mB : Extension Unit := ⟨"b", fun _ => true, [], ["a"], fun _ => Except.ok ()⟩

/-- Witness extension "p": active, depending on "q". -/
def wP : Extension Unit := ⟨"p", fun _ => true, ["q"], [], fun _ => Except.ok ()⟩

/-- Witness extension "q": inactive on its own. -/
def wQ : Extension Unit := ⟨"q", fun _ => false, [], [], fun _ => Except.ok ()⟩

/-- Witness extension whose validation fails. -/
def wBad : Extension Unit := ⟨"bad", fun _ => true, [], [], fun _ => Except.error "boom"⟩

/-- First registration under name "a" (depends on "x"). -/
def dupA1 : Extension Unit := ⟨"a", fun _ => true, ["x"], [], fun _ => Except.ok ()⟩

/-- Second registration under name "a" (no dependencies). -/
def dupA2 : Extension Unit := ⟨"a", fun _ => true, [], [], fun _ => Except.ok ()⟩

/-- Invariant of the scheduler state, maintained by every successful
`visit` call: the DFS path is duplicate-free, stays inside the item keys and
is disjoint from `visited`; `visited` mirrors the names of `result` (which
holds items only); and `result` already satisfies the hint ordering. -/
structure SortInv {Opt : Type} (items : List (Extension Opt)) (st : SortState Opt) : Prop where
  temp_nodup : st.temp.Nodup
  temp_sub : ∀ n ∈ st.temp, n ∈ items.map Extension.name
  temp_vis : ∀ n ∈ st.temp, n ∉ st.visited
  vis_eq : st.result.map Extension.name = st.visited
  vis_nodup : st.visited.Nodup
  res_sub : ∀ e ∈ st.result, e ∈ items
  ordered : OrderedA items [] st.result

/-! ### Basic facts about name lookup -/

theorem hasName_iff {Opt : Type} {l : List (Extension Opt)} {n : String} :
    hasName l n = true ↔ ∃ e ∈ l, e.name = n := by
  simp [hasName, List.any_eq_true, beq_iff_eq]

theorem hasName_false_iff {Opt : Type} {l : List (Extension Opt)} {n : String} :
    hasName l n = false ↔ ∀ e ∈ l, e.name ≠ n := by
  rw [← Bool.not_eq_true, hasName_iff]
  push_neg
  rfl

theorem hasName_map_iff {Opt : Type} {l : List (Extension Opt)} {n : String} :
    hasName l n = true ↔ n ∈ l.map Extension.name := by
  rw [hasName_iff]
  simp [List.mem_map, eq_comm]

theorem findExt_some {Opt : Type} {l : List (Extension Opt)} {n : String} {e : Extension Opt}
    (h : findExt l n = some e) : e ∈ l ∧ e.name = n := by
  refine ⟨List.mem_of_find?_eq_some h, ?_⟩
  have := List.find?_some h
  simpa [beq_iff_eq] using this

theorem findExt_none_iff {Opt : Type} {l : List (Extension Opt)} {n : String} :
    findExt l n = none ↔ hasName l n = false := by
  rw [hasName_false_iff]
  unfold findExt
  rw [List.find?_eq_none]
  simp [beq_iff_eq]

theorem findExt_isSome {Opt : Type} {l : List (Extension Opt)} {n : String}
    (h : hasName l n = true) : ∃ e, findExt l n = some e := by
  cases hf : findExt l n with
  | none => rw [findExt_none_iff] at hf; rw [hf] at h; cases h
  | some e => exact ⟨e, rfl⟩

/-! ### The dependency-expansion scan (core.py lines 70-78) -/

theorem depFold_grow {Opt : Type} (reg : List (Extension Opt)) (ds : List String) :
    ∀ st : List (Extension Opt) × Bool, ∃ t, (ds.foldl (depStep reg) st).1 = st.1 ++ t ∧
      ∀ x ∈ t, x ∈ reg ∧ ∃ d ∈ ds, findExt reg d = some x := by
  induction ds with
  | nil => intro st; exact ⟨[], by simp, by simp⟩
  | cons d rest ih =>
    intro st
    rcases ih (depStep reg st d) with ⟨t, ht, hmem⟩
    rw [List.foldl_cons]
    by_cases h1 : hasName st.1 d = true
    · refine ⟨t, ?_, ?_⟩
      · rw [ht]; simp [depStep, h1]
      · intro x hx
        rcases hmem x hx with ⟨hr, d', hd', hf⟩
        exact ⟨hr, d', List.mem_cons_of_mem _ hd', hf⟩
    · cases hf : findExt reg d with
      | none =>
        refine ⟨t, ?_, ?_⟩
        · rw [ht]; simp [depStep, h1, hf]
        · intro x hx
          rcases hmem x hx with ⟨hr, d', hd', hf'⟩
          exact ⟨hr, d', List.mem_cons_of_mem _ hd', hf'⟩
      | some e =>
        have hstep : depStep reg st d = (st.1 ++ [e], true) := by
          simp [depStep, h1, hf]
        refine ⟨e :: t, ?_, ?_⟩
        · rw [ht, hstep]; simp
        · intro x hx
          rcases List.mem_cons.mp hx with hxe | hxt
          · subst hxe
            exact ⟨(findExt_some hf).1, d, List.mem_cons_self _ _, hf⟩
          · rcases hmem x hxt with ⟨hr, d', hd', hf'⟩
            exact ⟨hr, d', List.mem_cons_of_mem _ hd', hf'⟩

theorem depStep_flagMono {Opt : Type} {reg : List (Extension Opt)}
    {st : List (Extension Opt) × Bool} {d : String} (h : st.2 = true) :
    (depStep reg st d).2 = true := by
  unfold depStep
  by_cases h1 : hasName st.1 d = true
  · simp [h1, h]
  · cases hf : findExt reg d <;> simp [h1, hf, h]

theorem depFold_flagMono {Opt : Type} (reg : List (Extension Opt)) (ds : List String) :
    ∀ st : List (Extension Opt) × Bool, st.2 = true → (ds.foldl (depStep reg) st).2 = true := by
  induction ds with
  | nil => intro st h; simpa using h
  | cons d rest ih =>
    intro st h
    rw [List.foldl_cons]
    exact ih _ (depStep_flagMono h)

theorem depFold_flagFalse {Opt : Type} (reg : List (Extension Opt)) (ds : List String) :
    ∀ st : List (Extension Opt) × Bool, (ds.foldl (depStep reg) st).2 = false →
      ds.foldl (depStep reg) st = st ∧
      ∀ d ∈ ds, hasName st.1 d = true ∨ hasName reg d = false := by
  induction ds with
  | nil => intro st _; exact ⟨rfl, by simp⟩
  | cons d rest ih =>
    intro st hflag
    rw [List.foldl_cons] at hflag ⊢
    have hst1 : (depStep reg st d).2 = false := by
      cases h2 : (depStep reg st d).2
      · rfl
      · rw [depFold_flagMono reg rest _ h2] at hflag; cases hflag
    by_cases h1 : hasName st.1 d = true
    · have hstep : depStep reg st d = st := by simp [depStep, h1]
      rw [hstep] at hflag ⊢
      rcases ih st hflag with ⟨heq, hall⟩
      refine ⟨heq, ?_⟩
      intro d' hd'
      rcases List.mem_cons.mp hd' with h | h
      · subst h; exact Or.inl h1
      · exact hall d' h
    · cases hf : findExt reg d with
      | none =>
        have hstep : depStep reg st d = st := by simp [depStep, h1, hf]
        rw [hstep] at hflag ⊢
        rcases ih st hflag with ⟨heq, hall⟩
        refine ⟨heq, ?_⟩
        intro d' hd'
        rcases List.mem_cons.mp hd' with h | h
        · subst h; exact Or.inr (findExt_none_iff.mp hf)
        · exact hall d' h
      | some e =>
        exfalso
        have hstep : depStep reg st d = (st.1 ++ [e], true) := by simp [depStep, h1, hf]
        rw [hstep] at hst1
        cases hst1

theorem depFold_nodup {Opt : Type} (reg : List (Extension Opt)) (ds : List String) :
    ∀ st : List (Extension Opt) × Bool, (st.1.map Extension.name).Nodup →
      (((ds.foldl (depStep reg) st).1).map Extension.name).Nodup := by
  induction ds with
  | nil => intro st h; simpa using h
  | cons d rest ih =>
    intro st h
    rw [List.foldl_cons]
    apply ih
    by_cases h1 : hasName st.1 d = true
    · simpa [depStep, h1] using h
    · cases hf : findExt reg d with
      | none => simpa [depStep, h1, hf] using h
      | some e =>
        have hstep : depStep reg st d = (st.1 ++ [e], true) := by simp [depStep, h1, hf]
        rw [hstep]
        have hname : e.name = d := (findExt_some hf).2
        have hnotmem : d ∉ st.1.map Extension.name := by
          intro hc
          rw [← hasName_map_iff] at hc
          exact h1 hc
        simp [List.nodup_append, h, hname, hnotmem]

theorem depFold_len_le {Opt : Type} (reg : List (Extension Opt)) (ds : List String)
    (st : List (Extension Opt) × Bool) :
    st.1.length ≤ (ds.foldl (depStep reg) st).1.length := by
  rcases depFold_grow reg ds st with ⟨t, ht, _⟩
  rw [ht]
  simp

theorem depFold_lt {Opt : Type} (reg : List (Extension Opt)) (ds : List String) :
    ∀ st : List (Extension Opt) × Bool, st.2 = false →
      (ds.foldl (depStep reg) st).2 = true →
      st.1.length < (ds.foldl (depStep reg) st).1.length := by
  induction ds with
  | nil => intro st h1 h2; rw [List.foldl_nil] at h2; rw [h1] at h2; cases h2
  | cons d rest ih =>
    intro st h1 h2
    rw [List.foldl_cons] at h2 ⊢
    by_cases h3 : (depStep reg st d).2 = true
    · have hgrow : st.1.length < (depStep reg st d).1.length := by
        by_cases hn : hasName st.1 d = true
        · exfalso
          have : depStep reg st d = st := by simp [depStep, hn]
          rw [this] at h3; rw [h1] at h3; cases h3
        · cases hf : findExt reg d with
          | none =>
            exfalso
            have : depStep reg st d = st := by simp [depStep, hn, hf]
            rw [this] at h3; rw [h1] at h3; cases h3
          | some e =>
            have : depStep reg st d = (st.1 ++ [e], true) := by simp [depStep, hn, hf]
            rw [this]; simp
      have hle := depFold_len_le reg rest (depStep reg st d)
      omega
    · have h3' : (depStep reg st d).2 = false := by
        cases h : (depStep reg st d).2
        · rfl
        · exact absurd h h3
      have := ih (depStep reg st d) h3' h2
      have hle : st.1.length ≤ (depStep reg st d).1.length := by
        by_cases hn : hasName st.1 d = true
        · simp [depStep, hn]
        · cases hf : findExt reg d with
          | none => simp [depStep, hn, hf]
          | some e => simp [depStep, hn, hf]
      omega

theorem passFold_grow {Opt : Type} (reg : List (Extension Opt)) (es : List (Extension Opt)) :
    ∀ st : List (Extension Opt) × Bool, ∃ t, (es.foldl (extStep reg) st).1 = st.1 ++ t ∧
      ∀ x ∈ t, x ∈ reg ∧ ∃ a ∈ es, ∃ d ∈ a.deps, findExt reg d = some x := by
  induction es with
  | nil => intro st; exact ⟨[], by simp, by simp⟩
  | cons a rest ih =>
    intro st
    rw [List.foldl_cons]
    rcases depFold_grow reg a.deps st with ⟨t1, ht1, hm1⟩
    rcases ih (extStep reg st a) with ⟨t2, ht2, hm2⟩
    refine ⟨t1 ++ t2, ?_, ?_⟩
    · rw [ht2]
      show (a.deps.foldl (depStep reg) st).1 ++ t2 = st.1 ++ (t1 ++ t2)
      rw [ht1, List.append_assoc]
    · intro x hx
      rcases List.mem_append.mp hx with h | h
      · rcases hm1 x h with ⟨hr, d, hd, hf⟩
        exact ⟨hr, a, List.mem_cons_self _ _, d, hd, hf⟩
      · rcases hm2 x h with ⟨hr, a', ha', d, hd, hf⟩
        exact ⟨hr, a', List.mem_cons_of_mem _ ha', d, hd, hf⟩

theorem passFold_flagMono {Opt : Type} (reg : List (Extension Opt)) (es : List (Extension Opt)) :
    ∀ st : List (Extension Opt) × Bool, st.2 = true → (es.foldl (extStep reg) st).2 = true := by
  induction es with
  | nil => intro st h; simpa using h
  | cons a rest ih =>
    intro st h
    rw [List.foldl_cons]
    exact ih _ (depFold_flagMono reg a.deps st h)

theorem passFold_flagFalse {Opt : Type} (reg : List (Extension Opt)) (es : List (Extension Opt)) :
    ∀ st : List (Extension Opt) × Bool, (es.foldl (extStep reg) st).2 = false →
      es.foldl (extStep reg) st = st ∧
      ∀ a ∈ es, ∀ d ∈ a.deps, hasName st.1 d = true ∨ hasName reg d = false := by
  induction es with
  | nil => intro st _; exact ⟨rfl, by simp⟩
  | cons a rest ih =>
    intro st hflag
    rw [List.foldl_cons] at hflag ⊢
    have hst1 : (extStep reg st a).2 = false := by
      cases h2 : (extStep reg st a).2
      · rfl
      · rw [passFold_flagMono reg rest _ h2] at hflag; cases hflag
    rcases depFold_flagFalse reg a.deps st hst1 with ⟨heq1, hall1⟩
    rw [show extStep reg st a = a.deps.foldl (depStep reg) st from rfl, heq1] at hflag ⊢
    rcases ih st hflag with ⟨heq2, hall2⟩
    refine ⟨heq2, ?_⟩
    intro a' ha' d hd
    rcases List.mem_cons.mp ha' with h | h
    · subst h; exact hall1 d hd
    · exact hall2 a' h d hd

theorem passFold_nodup {Opt : Type} (reg : List (Extension Opt)) (es : List (Extension Opt)) :
    ∀ st : List (Extension Opt) × Bool, (st.1.map Extension.name).Nodup →
      (((es.foldl (extStep reg) st).1).map Extension.name).Nodup := by
  induction es with
  | nil => intro st h; simpa using h
  | cons a rest ih =>
    intro st h
    rw [List.foldl_cons]
    exact ih _ (depFold_nodup reg a.deps st h)

theorem passFold_len_le {Opt : Type} (reg : List (Extension Opt)) (es : List (Extension Opt))
    (st : List (Extension Opt) × Bool) :
    st.1.length ≤ (es.foldl (extStep reg) st).1.length := by
  rcases passFold_grow reg es st with ⟨t, ht, _⟩
  rw [ht]
  simp

theorem passFold_lt {Opt : Type} (reg : List (Extension Opt)) (es : List (Extension Opt)) :
    ∀ st : List (Extension Opt) × Bool, st.2 = false →
      (es.foldl (extStep reg) st).2 = true →
      st.1.length < (es.foldl (extStep reg) st).1.length := by
  induction es with
  | nil => intro st h1 h2; rw [List.foldl_nil] at h2; rw [h1] at h2; cases h2
  | cons a rest ih =>
    intro st h1 h2
    rw [List.foldl_cons] at h2 ⊢
    by_cases h3 : (extStep reg st a).2 = true
    · have hlt := depFold_lt reg a.deps st h1 h3
      have hle := passFold_len_le reg rest (extStep reg st a)
      show st.1.length < (rest.foldl (extStep reg) (extStep reg st a)).1.length
      have : st.1.length < (extStep reg st a).1.length := hlt
      omega
    · have h3' : (extStep reg st a).2 = false := by
        cases h : (extStep reg st a).2
        · rfl
        · exact absurd h h3
      have heq : extStep reg st a = st := (depFold_flagFalse reg a.deps st h3').1
      rw [heq] at h2 ⊢
      exact ih st h1 h2

/-! ### Properties of one full expansion pass -/

theorem pass_grow {Opt : Type} (reg a : List (Extension Opt)) :
    ∃ t, (expandPass reg a).1 = a ++ t ∧
      ∀ x ∈ t, x ∈ reg ∧ ∃ e ∈ a, ∃ d ∈ e.deps, findExt reg d = some x := by
  simpa [expandPass] using passFold_grow reg a (a, false)

theorem pass_closed {Opt : Type} (reg a : List (Extension Opt))
    (h : (expandPass reg a).2 = false) :
    (expandPass reg a).1 = a ∧
      ∀ e ∈ a, ∀ d ∈ e.deps, hasName reg d = true → hasName a d = true := by
  rcases passFold_flagFalse reg a (a, false) h with ⟨heq, hall⟩
  constructor
  · show (a.foldl (extStep reg) (a, false)).1 = a
    rw [heq]
  · intro e he d hd hreg
    rcases hall e he d hd with h1 | h1
    · exact h1
    · rw [hreg] at h1; cases h1

theorem pass_nodup {Opt : Type} (reg a : List (Extension Opt))
    (h : (a.map Extension.name).Nodup) :
    (((expandPass reg a).1).map Extension.name).Nodup :=
  passFold_nodup reg a (a, false) h

theorem pass_lt {Opt : Type} (reg a : List (Extension Opt))
    (h : (expandPass reg a).2 = true) :
    a.length < (expandPass reg a).1.length :=
  passFold_lt reg a (a, false) rfl h

theorem pass_reach {Opt : Type} (reg a : List (Extension Opt)) (opt : Opt)
    (h : ∀ e ∈ a, e ∈ reg ∧ DepReach reg opt e) :
    ∀ x ∈ (expandPass reg a).1, x ∈ reg ∧ DepReach reg opt x := by
  rcases pass_grow reg a with ⟨t, ht, hm⟩
  rw [ht]
  intro x hx
  rcases List.mem_append.mp hx with hxa | hxt
  · exact h x hxa
  · rcases hm x hxt with ⟨hr, e, he, d, hd, hf⟩
    rcases findExt_some hf with ⟨hxreg, hxname⟩
    exact ⟨hr, DepReach.step e x d (h e he).2 hd hxreg hxname⟩

/-! ### Properties of the expansion loop -/

theorem loop_grow {Opt : Type} (reg : List (Extension Opt)) :
    ∀ (fuel : Nat) (a : List (Extension Opt)), ∃ t, expandLoop reg fuel a = a ++ t ∧
      ∀ x ∈ t, x ∈ reg := by
  intro fuel
  induction fuel with
  | zero => intro a; exact ⟨[], by simp [expandLoop], by simp⟩
  | succ f ih =>
    intro a
    rcases pass_grow reg a with ⟨t1, ht1, hm1⟩
    by_cases hp : (expandPass reg a).2 = true
    · rcases ih (expandPass reg a).1 with ⟨t2, ht2, hm2⟩
      refine ⟨t1 ++ t2, ?_, ?_⟩
      · rw [show expandLoop reg (f + 1) a = expandLoop reg f (expandPass reg a).1 by
          simp [expandLoop, hp]]
        rw [ht2, ht1, List.append_assoc]
      · intro x hx
        rcases List.mem_append.mp hx with h | h
        · exact (hm1 x h).1
        · exact hm2 x h
    · refine ⟨t1, ?_, fun x hx => (hm1 x hx).1⟩
      rw [show expandLoop reg (f + 1) a = (expandPass reg a).1 by
        simp [expandLoop]
        intro h
        exact absurd h hp]
      exact ht1

theorem loop_nodup {Opt : Type} (reg : List (Extension Opt)) :
    ∀ (fuel : Nat) (a : List (Extension Opt)), (a.map Extension.name).Nodup →
      ((expandLoop reg fuel a).map Extension.name).Nodup := by
  intro fuel
  induction fuel with
  | zero => intro a h; simpa [expandLoop] using h
  | succ f ih =>
    intro a h
    by_cases hp : (expandPass reg a).2 = true
    · rw [show expandLoop reg (f + 1) a = expandLoop reg f (expandPass reg a).1 by
        simp [expandLoop, hp]]
      exact ih _ (pass_nodup reg a h)
    · rw [show expandLoop reg (f + 1) a = (expandPass reg a).1 by
        simp [expandLoop]
        intro h'
        exact absurd h' hp]
      exact pass_nodup reg a h

theorem loop_reach {Opt : Type} (reg : List (Extension Opt)) (opt : Opt) :
    ∀ (fuel : Nat) (a : List (Extension Opt)),
      (∀ e ∈ a, e ∈ reg ∧ DepReach reg opt e) →
      ∀ x ∈ expandLoop reg fuel a, x ∈ reg ∧ DepReach reg opt x := by
  intro fuel
  induction fuel with
  | zero => intro a h; simpa [expandLoop] using h
  | succ f ih =>
    intro a h
    by_cases hp : (expandPass reg a).2 = true
    · rw [show expandLoop reg (f + 1) a = expandLoop reg f (expandPass reg a).1 by
        simp [expandLoop, hp]]
      exact ih _ (pass_reach reg a opt h)
    · rw [show expandLoop reg (f + 1) a = (expandPass reg a).1 by
        simp [expandLoop]
        intro h'
        exact absurd h' hp]
      exact pass_reach reg a opt h

theorem loop_closed {Opt : Type} (reg : List (Extension Opt)) :
    ∀ (fuel : Nat) (a : List (Extension Opt)), (a.map Extension.name).Nodup →
      (∀ n ∈ a.map Extension.name, n ∈ reg.map Extension.name) →
      reg.length + 1 - a.length ≤ fuel →
      ∀ e ∈ expandLoop reg fuel a, ∀ d ∈ e.deps,
        hasName reg d = true → hasName (expandLoop reg fuel a) d = true := by
  intro fuel
  induction fuel with
  | zero =>
    intro a hnd hsub hle
    exfalso
    have hsp : (a.map Extension.name).Subperm (reg.map Extension.name) :=
      List.subperm_of_subset hnd hsub
    have := hsp.length_le
    simp only [List.length_map] at this
    omega
  | succ f ih =>
    intro a hnd hsub hle
    by_cases hp : (expandPass reg a).2 = true
    · rw [show expandLoop reg (f + 1) a = expandLoop reg f (expandPass reg a).1 by
        simp [expandLoop, hp]]
      rcases pass_grow reg a with ⟨t, ht, hm⟩
      apply ih
      · exact pass_nodup reg a hnd
      · intro n hn
        rw [ht] at hn
        rcases List.mem_map.mp hn with ⟨x, hx, hxn⟩
        rcases List.mem_append.mp hx with h | h
        · exact hsub n (hxn ▸ List.mem_map_of_mem Extension.name h)
        · exact hxn ▸ List.mem_map_of_mem Extension.name (hm x h).1
      · have := pass_lt reg a hp
        omega
    · rw [show expandLoop reg (f + 1) a = (expandPass reg a).1 by
        simp [expandLoop]
        intro h'
        exact absurd h' hp]
      rcases pass_closed reg a (by cases h : (expandPass reg a).2; rfl; exact absurd h hp)
        with ⟨heq, hclosed⟩
      rw [heq]
      exact hclosed

theorem seed_mem {Opt : Type} {reg : List (Extension Opt)} {opt : Opt} {e : Extension Opt} :
    e ∈ seedExtensions reg opt ↔ e ∈ reg ∧ e.activate opt = true := by
  simp [seedExtensions, List.mem_filter]

theorem seed_names_sublist {Opt : Type} (reg : List (Extension Opt)) (opt : Opt) :
    ((seedExtensions reg opt).map Extension.name).Sublist (reg.map Extension.name) :=
  List.Sublist.map Extension.name (List.filter_sublist reg)

/-- Claim C2: for every registry (with the dict's unique keys) and every
option set, the active set computed by `get_active_extensions` contains every
registered extension whose activation predicate returns true for the options,
and is closed under dependencies: every registered dependency name of an
active extension is itself an active name. -/
theorem resolver_superset_and_closed {Opt : Type} (reg : List (Extension Opt)) (opt : Opt)
    (hN : (reg.map Extension.name).Nodup) :
    (∀ e ∈ reg, e.activate opt = true → e ∈ activeSet reg opt) ∧
    (∀ e ∈ activeSet reg opt, ∀ d ∈ e.deps,
      hasName reg d = true → hasName (activeSet reg opt) d = true) := by
  constructor
  · intro e he hact
    rcases loop_grow reg (reg.length + 1) (seedExtensions reg opt) with ⟨t, ht, _⟩
    unfold activeSet
    rw [ht]
    exact List.mem_append_left _ (seed_mem.mpr ⟨he, hact⟩)
  · have hnd : ((seedExtensions reg opt).map Extension.name).Nodup :=
      List.Nodup.sublist (seed_names_sublist reg opt) hN
    have hsub : ∀ n ∈ (seedExtensions reg opt).map Extension.name, n ∈ reg.map Extension.name :=
      fun n hn => List.Sublist.subset (seed_names_sublist reg opt) hn
    exact loop_closed reg (reg.length + 1) (seedExtensions reg opt) hnd hsub (Nat.sub_le _ _)

/-- Witness for C2 on the concrete registry `[wP, wQ]` ("p" active and
depending on "q"; "q" inactive by itself). -/
theorem resolver_superset_and_closed_witness :
    (List.map Extension.name [wP, wQ]).Nodup ∧
    ((∀ e ∈ [wP, wQ], e.activate () = true → e ∈ activeSet [wP, wQ] ()) ∧
     (∀ e ∈ activeSet [wP, wQ] (), ∀ d ∈ e.deps,
       hasName [wP, wQ] d = true → hasName (activeSet [wP, wQ] ()) d = true)) :=
  ⟨by decide, resolver_superset_and_closed [wP, wQ] () (by decide)⟩

/-- Claim C8: during dependency expansion a dependency name absent from the
registry is silently ignored — every member of the active set is a registered
extension, and an unregistered name is never an active name.  (The embedded
expansion is a total function: no error is possible.) -/
theorem resolver_ignores_unregistered_deps {Opt : Type} (reg : List (Extension Opt)) (opt : Opt) :
    (∀ e ∈ activeSet reg opt, e ∈ reg) ∧
    (∀ d, hasName reg d = false → hasName (activeSet reg opt) d = false) := by
  have hmem : ∀ e ∈ activeSet reg opt, e ∈ reg := by
    rcases loop_grow reg (reg.length + 1) (seedExtensions reg opt) with ⟨t, ht, hm⟩
    intro e he
    unfold activeSet at he
    rw [ht] at he
    rcases List.mem_append.mp he with h | h
    · exact (seed_mem.mp h).1
    · exact hm e h
  refine ⟨hmem, ?_⟩
  intro d hreg
  cases hact : hasName (activeSet reg opt) d with
  | false => rfl
  | true =>
    exfalso
    rcases hasName_iff.mp hact with ⟨e, he, hname⟩
    have : hasName reg d = true := hasName_iff.mpr ⟨e, hmem e he, hname⟩
    rw [hreg] at this
    cases this

/-- Witness for C8: registry `[wP]` alone, whose dependency "q" is
unregistered; "q" never becomes active. -/
theorem resolver_ignores_unregistered_deps_witness :
    hasName [wP] "q" = false ∧ hasName (activeSet [wP] ()) "q" = false :=
  ⟨rfl, (resolver_ignores_unregistered_deps [wP] ()).2 "q" rfl⟩

/-- Claim C10: the resolver adds nothing beyond the least dependency closure —
every member of the active set is predicate-activated or reachable from a
predicate-activated extension through a chain of registered dependency
names. -/
theorem resolver_least_closure {Opt : Type} (reg : List (Extension Opt)) (opt : Opt) :
    ∀ e ∈ activeSet reg opt, DepReach reg opt e := by
  intro e he
  refine (loop_reach reg opt (reg.length + 1) (seedExtensions reg opt) ?_ e he).2
  intro x hx
  rcases seed_mem.mp hx with ⟨hr, hact⟩
  exact ⟨hr, DepReach.seed x hr hact⟩

/-- Witness for C10: in registry `[wP, wQ]`, the inactive "q" enters the
active set only through the dependency of "p", and is indeed reachable. -/
theorem resolver_least_closure_witness : DepReach [wP, wQ] () wQ := by
  apply resolver_least_closure [wP, wQ] () wQ
  rw [show activeSet [wP, wQ] () = [wP, wQ] from rfl]
  exact List.mem_cons_of_mem _ (List.mem_cons_self _ _)

/-! ### Unfolding equations of the scheduler -/

theorem visitOne_mem_temp {Opt : Type} {items : List (Extension Opt)} {fuel : Nat}
    {name : String} {st : SortState Opt} (h : name ∈ st.temp) :
    visitOne items fuel name st = Except.error (SortErr.cyclic name) := by
  cases fuel <;> simp [visitOne, h]

theorem visitOne_mem_visited {Opt : Type} {items : List (Extension Opt)} {fuel : Nat}
    {name : String} {st : SortState Opt} (h1 : name ∉ st.temp) (h2 : name ∈ st.visited) :
    visitOne items fuel name st = Except.ok st := by
  cases fuel <;> simp [visitOne, h1, h2]

theorem visitOne_zero {Opt : Type} {items : List (Extension Opt)}
    {name : String} {st : SortState Opt} (h1 : name ∉ st.temp) (h2 : name ∉ st.visited) :
    visitOne items 0 name st = Except.error SortErr.fuelExhausted := by
  simp [visitOne, h1, h2]

theorem visitOne_succ {Opt : Type} {items : List (Extension Opt)} {fuel : Nat}
    {name : String} {st : SortState Opt} (h1 : name ∉ st.temp) (h2 : name ∉ st.visited) :
    visitOne items (fuel + 1) name st =
      match visitList items fuel (activeHints items name) { st with temp := st.temp ++ [name] } with
      | Except.error e => Except.error e
      | Except.ok st2 =>
        Except.ok { visited := st2.visited ++ [name],
                    temp := st2.temp.erase name,
                    result := st2.result ++ extOf items name } := by
  simp [visitOne, h1, h2, visitList]

theorem visitList_nil {Opt : Type} {items : List (Extension Opt)} {fuel : Nat}
    {st : SortState Opt} : visitList items fuel [] st = Except.ok st := rfl

theorem visitList_cons {Opt : Type} {items : List (Extension Opt)} {fuel : Nat}
    {d : String} {l : List String} {st : SortState Opt} :
    visitList items fuel (d :: l) st =
      match visitOne items fuel d st with
      | Except.error e => Except.error e
      | Except.ok s => visitList items fuel l s := by
  show (visitOne items fuel d st) >>= (fun s => visitList items fuel l s) = _
  cases visitOne items fuel d st <;> rfl

theorem erase_append_single {a : String} {l : List String} (h : a ∉ l) :
    (l ++ [a]).erase a = l := by
  induction l with
  | nil => simp
  | cons x xs ih =>
    have hxa : x ≠ a := by
      intro hh
      exact h (hh ▸ List.mem_cons_self x xs)
    have hax : a ∉ xs := fun hh => h (List.mem_cons_of_mem _ hh)
    rw [List.cons_append, List.erase_cons_tail, ih hax]
    simp [hxa]

theorem activeHints_hasName {Opt : Type} {items : List (Extension Opt)} {n : String} :
    ∀ d ∈ activeHints items n, hasName items d = true := by
  unfold activeHints
  cases hf : findExt items n with
  | none => simp
  | some e =>
    intro d hd
    exact (List.mem_filter.mp hd).2

theorem activeHints_names {Opt : Type} {items : List (Extension Opt)} {n : String} :
    ∀ d ∈ activeHints items n, d ∈ items.map Extension.name :=
  fun d hd => hasName_map_iff.mp (activeHints_hasName d hd)

theorem activeHints_edge {Opt : Type} {items : List (Extension Opt)} {n : String} :
    ∀ d ∈ activeHints items n, hintEdge items n d := fun _ hd => hd

theorem temp_le_items {Opt : Type} {items : List (Extension Opt)} {temp : List String}
    (hnd : temp.Nodup) (hsub : ∀ n ∈ temp, n ∈ items.map Extension.name) :
    temp.length ≤ items.length := by
  have := (List.subperm_of_subset hnd hsub).length_le
  simpa using this

/-! ### The DFS path is restored by every successful visit -/

theorem visit_temp_eq {Opt : Type} (items : List (Extension Opt)) :
    ∀ (fuel : Nat) (name : String) (st st' : SortState Opt),
      visitOne items fuel name st = Except.ok st' → st'.temp = st.temp := by
  intro fuel
  induction fuel with
  | zero =>
    intro name st st' h
    by_cases h1 : name ∈ st.temp
    · rw [visitOne_mem_temp h1] at h; cases h
    · by_cases h2 : name ∈ st.visited
      · rw [visitOne_mem_visited h1 h2] at h; cases h; rfl
      · rw [visitOne_zero h1 h2] at h; cases h
  | succ f ih =>
    have hlist : ∀ (l : List String) (st st' : SortState Opt),
        visitList items f l st = Except.ok st' → st'.temp = st.temp := by
      intro l
      induction l with
      | nil => intro st st' h; rw [visitList_nil] at h; cases h; rfl
      | cons d rest ihl =>
        intro st st' h
        rw [visitList_cons] at h
        cases hv : visitOne items f d st with
        | error e => rw [hv] at h; cases h
        | ok s =>
          rw [hv] at h
          rw [ihl s st' h, ih d st s hv]
    intro name st st' h
    by_cases h1 : name ∈ st.temp
    · rw [visitOne_mem_temp h1] at h; cases h
    · by_cases h2 : name ∈ st.visited
      · rw [visitOne_mem_visited h1 h2] at h; cases h; rfl
      · rw [visitOne_succ h1 h2] at h
        cases hv : visitList items f (activeHints items name)
            { st with temp := st.temp ++ [name] } with
        | error e => rw [hv] at h; cases h
        | ok st2 =>
          rw [hv] at h
          cases h
          show st2.temp.erase name = st.temp
          have h3 : st2.temp = st.temp ++ [name] := hlist _ _ _ hv
          rw [h3, erase_append_single h1]

theorem visitList_temp_eq {Opt : Type} (items : List (Extension Opt)) (fuel : Nat) :
    ∀ (l : List String) (st st' : SortState Opt),
      visitList items fuel l st = Except.ok st' → st'.temp = st.temp := by
  intro l
  induction l with
  | nil => intro st st' h; rw [visitList_nil] at h; cases h; rfl
  | cons d rest ihl =>
    intro st st' h
    rw [visitList_cons] at h
    cases hv : visitOne items fuel d st with
    | error e => rw [hv] at h; cases h
    | ok s =>
      rw [hv] at h
      rw [ihl s st' h, visit_temp_eq items fuel d st s hv]

/-! ### The fuel bound never fires -/

theorem visit_no_fuel {Opt : Type} (items : List (Extension Opt)) :
    ∀ (fuel : Nat) (name : String) (st : SortState Opt),
      st.temp.Nodup → (∀ n ∈ st.temp, n ∈ items.map Extension.name) →
      name ∈ items.map Extension.name →
      items.length + 1 - st.temp.length ≤ fuel →
      visitOne items fuel name st ≠ Except.error SortErr.fuelExhausted := by
  intro fuel
  induction fuel with
  | zero =>
    intro name st hnd hsub _ hb
    exfalso
    have := temp_le_items hnd hsub
    omega
  | succ f ih =>
    have hlist : ∀ (l : List String) (st : SortState Opt),
        st.temp.Nodup → (∀ n ∈ st.temp, n ∈ items.map Extension.name) →
        (∀ n ∈ l, n ∈ items.map Extension.name) →
        items.length + 1 - st.temp.length ≤ f →
        visitList items f l st ≠ Except.error SortErr.fuelExhausted := by
      intro l
      induction l with
      | nil => intro st _ _ _ _ h; rw [visitList_nil] at h; cases h
      | cons d rest ihl =>
        intro st hnd hsub hl hb h
        rw [visitList_cons] at h
        cases hv : visitOne items f d st with
        | error e =>
          rw [hv] at h
          cases h
          exact ih d st hnd hsub (hl d (List.mem_cons_self _ _)) hb hv
        | ok s =>
          rw [hv] at h
          have hteq : s.temp = st.temp := visit_temp_eq items f d st s hv
          exact ihl s (hteq ▸ hnd) (hteq ▸ hsub)
            (fun n hn => hl n (List.mem_cons_of_mem _ hn)) (hteq ▸ hb) h
    intro name st hnd hsub hname hb h
    by_cases h1 : name ∈ st.temp
    · rw [visitOne_mem_temp h1] at h; cases h
    · by_cases h2 : name ∈ st.visited
      · rw [visitOne_mem_visited h1 h2] at h; cases h
      · rw [visitOne_succ h1 h2] at h
        cases hv : visitList items f (activeHints items name)
            { st with temp := st.temp ++ [name] } with
        | error e =>
          rw [hv] at h
          cases h
          refine hlist (activeHints items name) { st with temp := st.temp ++ [name] }
            ?_ ?_ ?_ ?_ hv
          · simp [List.nodup_append, hnd, h1]
          · intro n hn
            rcases List.mem_append.mp hn with hm | hm
            · exact hsub n hm
            · simp at hm; exact hm ▸ hname
          · exact activeHints_names
          · show items.length + 1 - (st.temp ++ [name]).length ≤ f
            simp only [List.length_append, List.length_cons, List.length_nil]
            omega
        | ok st2 => rw [hv] at h; cases h

theorem visitList_no_fuel {Opt : Type} (items : List (Extension Opt)) (fuel : Nat) :
    ∀ (l : List String) (st : SortState Opt),
      st.temp.Nodup → (∀ n ∈ st.temp, n ∈ items.map Extension.name) →
      (∀ n ∈ l, n ∈ items.map Extension.name) →
      items.length + 1 - st.temp.length ≤ fuel →
      visitList items fuel l st ≠ Except.error SortErr.fuelExhausted := by
  intro l
  induction l with
  | nil => intro st _ _ _ _ h; rw [visitList_nil] at h; cases h
  | cons d rest ihl =>
    intro st hnd hsub hl hb h
    rw [visitList_cons] at h
    cases hv : visitOne items fuel d st with
    | error e =>
      rw [hv] at h
      cases h
      exact visit_no_fuel items fuel d st hnd hsub (hl d (List.mem_cons_self _ _)) hb hv
    | ok s =>
      rw [hv] at h
      have hteq : s.temp = st.temp := visit_temp_eq items fuel d st s hv
      exact ihl s (hteq ▸ hnd) (hteq ▸ hsub)
        (fun n hn => hl n (List.mem_cons_of_mem _ hn)) (hteq ▸ hb) h

/-! ### A cyclic failure names a member of a genuine hint cycle -/

theorem chain_reach_last {R : String → String → Prop} :
    ∀ (L : List String), List.Chain' R L → ∀ n ∈ L, ∀ p, L.getLast? = some p →
      Relation.ReflTransGen R n p := by
  intro L
  induction L with
  | nil => intro _ n hn; cases hn
  | cons a L ih =>
    intro hc n hn p hp
    cases L with
    | nil =>
      simp at hp hn
      subst hp; subst hn
      exact Relation.ReflTransGen.refl
    | cons b L' =>
      rcases List.chain'_cons.mp hc with ⟨hab, hc'⟩
      rw [List.getLast?_cons_cons] at hp
      rcases List.mem_cons.mp hn with h | h
      · subst h
        exact Relation.ReflTransGen.head hab
          (ih hc' b (List.mem_cons_self _ _) p hp)
      · exact ih hc' n h p hp

theorem temp_cycle {Opt : Type} {items : List (Extension Opt)} {temp : List String}
    {name : String} (hc : List.Chain' (hintEdge items) temp) (hn : name ∈ temp)
    (hedge : ∀ p, temp.getLast? = some p → hintEdge items p name) :
    Relation.TransGen (hintEdge items) name name := by
  rcases List.append_of_mem hn with ⟨t1, t2, ht⟩
  subst ht
  have hlast : (t1 ++ name :: t2).getLast? = (name :: t2).getLast? :=
    List.getLast?_append_cons t1 name t2
  cases hp : (name :: t2).getLast? with
  | none => simp [List.getLast?] at hp
  | some p =>
    have hc2 : List.Chain' (hintEdge items) (name :: t2) :=
      (List.chain'_append.mp hc).2.1
    have hreach : Relation.ReflTransGen (hintEdge items) name p :=
      chain_reach_last (name :: t2) hc2 name (List.mem_cons_self _ _) p hp
    have hpn : hintEdge items p name := hedge p (by rw [hlast]; exact hp)
    exact Relation.TransGen.tail' hreach hpn

theorem visit_cyclic {Opt : Type} (items : List (Extension Opt)) :
    ∀ (fuel : Nat) (name : String) (st : SortState Opt),
      List.Chain' (hintEdge items) st.temp →
      (∀ n ∈ st.temp, n ∈ items.map Extension.name) →
      name ∈ items.map Extension.name →
      (∀ p, st.temp.getLast? = some p → hintEdge items p name) →
      ∀ m, visitOne items fuel name st = Except.error (SortErr.cyclic m) →
        m ∈ items.map Extension.name ∧ Relation.TransGen (hintEdge items) m m := by
  intro fuel
  induction fuel with
  | zero =>
    intro name st hc hsub hname hedge m h
    by_cases h1 : name ∈ st.temp
    · rw [visitOne_mem_temp h1] at h
      have hm : m = name := by cases h; rfl
      subst hm
      exact ⟨hsub m h1, temp_cycle hc h1 hedge⟩
    · by_cases h2 : name ∈ st.visited
      · rw [visitOne_mem_visited h1 h2] at h; cases h
      · rw [visitOne_zero h1 h2] at h; cases h
  | succ f ih =>
    have hlist : ∀ (l : List String) (st : SortState Opt),
        List.Chain' (hintEdge items) st.temp →
        (∀ n ∈ st.temp, n ∈ items.map Extension.name) →
        (∀ d ∈ l, d ∈ items.map Extension.name) →
        (∀ d ∈ l, ∀ p, st.temp.getLast? = some p → hintEdge items p d) →
        ∀ m, visitList items f l st = Except.error (SortErr.cyclic m) →
          m ∈ items.map Extension.name ∧ Relation.TransGen (hintEdge items) m m := by
      intro l
      induction l with
      | nil => intro st _ _ _ _ m h; rw [visitList_nil] at h; cases h
      | cons d rest ihl =>
        intro st hc hsub hl hedge m h
        rw [visitList_cons] at h
        cases hv : visitOne items f d st with
        | error e =>
          rw [hv] at h
          have he : e = SortErr.cyclic m := by cases h; rfl
          subst he
          exact ih d st hc hsub (hl d (List.mem_cons_self _ _))
            (hedge d (List.mem_cons_self _ _)) m hv
        | ok s =>
          rw [hv] at h
          have hteq : s.temp = st.temp := visit_temp_eq items f d st s hv
          exact ihl s (hteq ▸ hc) (hteq ▸ hsub)
            (fun n hn => hl n (List.mem_cons_of_mem _ hn))
            (fun n hn => hteq ▸ hedge n (List.mem_cons_of_mem _ hn)) m h
    intro name st hc hsub hname hedge m h
    by_cases h1 : name ∈ st.temp
    · rw [visitOne_mem_temp h1] at h
      have hm : m = name := by cases h; rfl
      subst hm
      exact ⟨hsub m h1, temp_cycle hc h1 hedge⟩
    · by_cases h2 : name ∈ st.visited
      · rw [visitOne_mem_visited h1 h2] at h; cases h
      · rw [visitOne_succ h1 h2] at h
        cases hv : visitList items f (activeHints items name)
            { st with temp := st.temp ++ [name] } with
        | error e =>
          rw [hv] at h
          have he : e = SortErr.cyclic m := by cases h; rfl
          subst he
          refine hlist (activeHints items name) { st with temp := st.temp ++ [name] }
            ?_ ?_ activeHints_names ?_ m hv
          · refine List.Chain'.append hc (List.chain'_singleton name) ?_
            intro x hx y hy
            simp at hy
            subst hy
            exact hedge x hx
          · intro n hn
            rcases List.mem_append.mp hn with hm' | hm'
            · exact hsub n hm'
            · simp at hm'; exact hm' ▸ hname
          · intro d hd p hp
            have : (st.temp ++ [name]).getLast? = some name :=
              List.getLast?_append_cons st.temp name []
            rw [this] at hp
            cases hp
            exact activeHints_edge d hd
        | ok st2 => rw [hv] at h; cases h

theorem visitList_cyclic {Opt : Type} (items : List (Extension Opt)) (fuel : Nat) :
    ∀ (l : List String) (st : SortState Opt),
      List.Chain' (hintEdge items) st.temp →
      (∀ n ∈ st.temp, n ∈ items.map Extension.name) →
      (∀ d ∈ l, d ∈ items.map Extension.name) →
      (∀ d ∈ l, ∀ p, st.temp.getLast? = some p → hintEdge items p d) →
      ∀ m, visitList items fuel l st = Except.error (SortErr.cyclic m) →
        m ∈ items.map Extension.name ∧ Relation.TransGen (hintEdge items) m m := by
  intro l
  induction l with
  | nil => intro st _ _ _ _ m h; rw [visitList_nil] at h; cases h
  | cons d rest ihl =>
    intro st hc hsub hl hedge m h
    rw [visitList_cons] at h
    cases hv : visitOne items fuel d st with
    | error e =>
      rw [hv] at h
      have he : e = SortErr.cyclic m := by cases h; rfl
      subst he
      exact visit_cyclic items fuel d st hc hsub (hl d (List.mem_cons_self _ _))
        (hedge d (List.mem_cons_self _ _)) m hv
    | ok s =>
      rw [hv] at h
      have hteq : s.temp = st.temp := visit_temp_eq items fuel d st s hv
      exact ihl s (hteq ▸ hc) (hteq ▸ hsub)
        (fun n hn => hl n (List.mem_cons_of_mem _ hn))
        (fun n hn => hteq ▸ hedge n (List.mem_cons_of_mem _ hn)) m h

/-! ### Output ordering invariant -/

theorem orderedA_nil {Opt : Type} {items : List (Extension Opt)} {placed : List String} :
    OrderedA items placed [] := trivial

theorem orderedA_cons {Opt : Type} {items : List (Extension Opt)} {placed : List String}
    {e : Extension Opt} {rest : List (Extension Opt)} :
    OrderedA items placed (e :: rest) ↔
      (∀ p ∈ e.hints, hasName items p = true → p ∈ placed) ∧
        OrderedA items (placed ++ [e.name]) rest := Iff.rfl

theorem orderedA_append {Opt : Type} (items : List (Extension Opt)) :
    ∀ (r s : List (Extension Opt)) (placed : List String),
      OrderedA items placed (r ++ s) ↔
        OrderedA items placed r ∧ OrderedA items (placed ++ r.map Extension.name) s := by
  intro r
  induction r with
  | nil =>
    intro s placed
    simp only [List.nil_append, List.map_nil, List.append_nil]
    exact ⟨fun h => ⟨orderedA_nil, h⟩, fun h => h.2⟩
  | cons e r ih =>
    intro s placed
    rw [List.cons_append, orderedA_cons, orderedA_cons, ih, and_assoc, List.map_cons,
      List.append_assoc]
    exact Iff.rfl

theorem orderedA_mem_take {Opt : Type} (items : List (Extension Opt)) :
    ∀ (l : List (Extension Opt)) (placed : List String),
      OrderedA items placed l → ∀ (j : Nat) (hj : j < l.length),
      ∀ p ∈ (l.get ⟨j, hj⟩).hints, hasName items p = true →
        p ∈ placed ∨ p ∈ (l.take j).map Extension.name := by
  intro l
  induction l with
  | nil => intro placed _ j hj; exact absurd hj (by simp)
  | cons e rest ih =>
    intro placed hord j hj p hp hhn
    rcases orderedA_cons.mp hord with ⟨hhead, htail⟩
    cases j with
    | zero => exact Or.inl (hhead p hp hhn)
    | succ j' =>
      have hj' : j' < rest.length := by simpa using hj
      have hrec := ih (placed ++ [e.name]) htail j' hj' p hp hhn
      rcases hrec with h | h
      · rcases List.mem_append.mp h with h' | h'
        · exact Or.inl h'
        · right
          simp only [List.mem_singleton] at h'
          show p ∈ (e :: rest.take j').map Extension.name
          rw [h', List.map_cons]
          exact List.mem_cons_self _ _
      · right
        show p ∈ (e :: rest.take j').map Extension.name
        rw [List.map_cons]
        exact List.mem_cons_of_mem _ h

theorem mem_take_get {α : Type} : ∀ (l : List α) (j : Nat) (x : α), x ∈ l.take j →
    ∃ i, ∃ hi : i < l.length, i < j ∧ l.get ⟨i, hi⟩ = x := by
  intro l
  induction l with
  | nil => intro j x hx; simp at hx
  | cons e rest ih =>
    intro j x hx
    cases j with
    | zero => simp at hx
    | succ j' =>
      rw [show (e :: rest).take (j' + 1) = e :: rest.take j' from rfl] at hx
      rcases List.mem_cons.mp hx with h | h
      · exact ⟨0, by simp, Nat.succ_pos _, h.symm⟩
      · rcases ih j' x h with ⟨i, hi, hij, hget⟩
        exact ⟨i + 1, by simpa using Nat.succ_lt_succ hi, Nat.succ_lt_succ hij, hget⟩

theorem hasName_findExt {Opt : Type} {items : List (Extension Opt)} {n : String}
    (h : n ∈ items.map Extension.name) :
    ∃ e, findExt items n = some e ∧ e ∈ items ∧ e.name = n := by
  rcases findExt_isSome (hasName_map_iff.mpr h) with ⟨e, he⟩
  exact ⟨e, he, (findExt_some he).1, (findExt_some he).2⟩

/-! ### Invariant preservation on success -/

theorem visit_ok_inv {Opt : Type} (items : List (Extension Opt)) :
    ∀ (fuel : Nat) (name : String) (st st' : SortState Opt),
      SortInv items st → name ∈ items.map Extension.name →
      visitOne items fuel name st = Except.ok st' →
      SortInv items st' ∧ (∃ tv, st'.visited = st.visited ++ tv) ∧
        (∃ tr, st'.result = st.result ++ tr) ∧ name ∈ st'.visited := by
  intro fuel
  induction fuel with
  | zero =>
    intro name st st' inv hname h
    by_cases h1 : name ∈ st.temp
    · rw [visitOne_mem_temp h1] at h; cases h
    · by_cases h2 : name ∈ st.visited
      · rw [visitOne_mem_visited h1 h2] at h
        cases h
        exact ⟨inv, ⟨[], by simp⟩, ⟨[], by simp⟩, h2⟩
      · rw [visitOne_zero h1 h2] at h; cases h
  | succ f ih =>
    have hlist : ∀ (l : List String) (st st' : SortState Opt),
        SortInv items st → (∀ n ∈ l, n ∈ items.map Extension.name) →
        visitList items f l st = Except.ok st' →
        SortInv items st' ∧ (∃ tv, st'.visited = st.visited ++ tv) ∧
          (∃ tr, st'.result = st.result ++ tr) ∧ ∀ n ∈ l, n ∈ st'.visited := by
      intro l
      induction l with
      | nil =>
        intro st st' inv _ h
        rw [visitList_nil] at h
        cases h
        exact ⟨inv, ⟨[], by simp⟩, ⟨[], by simp⟩, by simp⟩
      | cons d rest ihl =>
        intro st st' inv hl h
        rw [visitList_cons] at h
        cases hv : visitOne items f d st with
        | error e => rw [hv] at h; cases h
        | ok s =>
          rw [hv] at h
          rcases ih d st s inv (hl d (List.mem_cons_self _ _)) hv with
            ⟨invs, ⟨tv1, hv1⟩, ⟨tr1, hr1⟩, hdv⟩
          rcases ihl s st' invs (fun n hn => hl n (List.mem_cons_of_mem _ hn)) h with
            ⟨inv', ⟨tv2, hv2⟩, ⟨tr2, hr2⟩, hrestv⟩
          refine ⟨inv', ⟨tv1 ++ tv2, by rw [hv2, hv1, List.append_assoc]⟩,
            ⟨tr1 ++ tr2, by rw [hr2, hr1, List.append_assoc]⟩, ?_⟩
          intro n hn
          rcases List.mem_cons.mp hn with h' | h'
          · subst h'
            rw [hv2]
            exact List.mem_append_left _ hdv
          · exact hrestv n h'
    intro name st st' inv hname h
    by_cases h1 : name ∈ st.temp
    · rw [visitOne_mem_temp h1] at h; cases h
    · by_cases h2 : name ∈ st.visited
      · rw [visitOne_mem_visited h1 h2] at h
        cases h
        exact ⟨inv, ⟨[], by simp⟩, ⟨[], by simp⟩, h2⟩
      · rw [visitOne_succ h1 h2] at h
        cases hv : visitList items f (activeHints items name)
            { st with temp := st.temp ++ [name] } with
        | error e => rw [hv] at h; cases h
        | ok st2 =>
          rw [hv] at h
          cases h
          rcases hasName_findExt hname with ⟨e, hf, hei, hen⟩
          have hextOf : extOf items name = [e] := by unfold extOf; rw [hf]
          have hAH : activeHints items name = e.hints.filter (fun d => hasName items d) := by
            unfold activeHints; rw [hf]
          have hinv1 : SortInv items { st with temp := st.temp ++ [name] } := by
            refine ⟨?_, ?_, ?_, inv.vis_eq, inv.vis_nodup, inv.res_sub, inv.ordered⟩
            · simp [List.nodup_append, inv.temp_nodup, h1]
            · intro n hn
              rcases List.mem_append.mp hn with hm | hm
              · exact inv.temp_sub n hm
              · simp at hm; exact hm ▸ hname
            · intro n hn
              rcases List.mem_append.mp hn with hm | hm
              · exact inv.temp_vis n hm
              · simp at hm; exact hm ▸ h2
          rcases hlist (activeHints items name) { st with temp := st.temp ++ [name] } st2
            hinv1 activeHints_names hv with ⟨inv2, ⟨tv2, hvis2⟩, ⟨tr2, hres2⟩, hAllVis⟩
          have hteq : st2.temp = st.temp ++ [name] :=
            visitList_temp_eq items f _ _ _ hv
          have hnv2 : name ∉ st2.visited :=
            inv2.temp_vis name (by rw [hteq]; exact List.mem_append_right _ (by simp))
          rw [hextOf]
          refine ⟨⟨?_, ?_, ?_, ?_, ?_, ?_, ?_⟩, ?_, ?_, ?_⟩
          · show (st2.temp.erase name).Nodup
            rw [hteq, erase_append_single h1]
            exact inv.temp_nodup
          · show ∀ n ∈ st2.temp.erase name, n ∈ items.map Extension.name
            rw [hteq, erase_append_single h1]
            exact inv.temp_sub
          · show ∀ n ∈ st2.temp.erase name, n ∉ st2.visited ++ [name]
            rw [hteq, erase_append_single h1]
            intro n hn
            have h3 : n ∈ st2.temp := by
              rw [hteq]; exact List.mem_append_left _ hn
            have h4 : n ≠ name := fun hc => h1 (hc ▸ hn)
            simp [List.mem_append, inv2.temp_vis n h3, h4]
          · show (st2.result ++ [e]).map Extension.name = st2.visited ++ [name]
            rw [List.map_append, inv2.vis_eq, List.map_cons, List.map_nil, hen]
          · show (st2.visited ++ [name]).Nodup
            simp [List.nodup_append, inv2.vis_nodup, hnv2]
          · show ∀ x ∈ st2.result ++ [e], x ∈ items
            intro x hx
            rcases List.mem_append.mp hx with hm | hm
            · exact inv2.res_sub x hm
            · simp at hm; exact hm ▸ hei
          · show OrderedA items [] (st2.result ++ [e])
            refine (orderedA_append items st2.result [e] []).mpr ⟨inv2.ordered, ?_⟩
            refine orderedA_cons.mpr ⟨?_, orderedA_nil⟩
            intro p hp hhn
            have hpa : p ∈ activeHints items name := by
              rw [hAH]
              exact List.mem_filter.mpr ⟨hp, hhn⟩
            have := hAllVis p hpa
            rw [← inv2.vis_eq] at this
            simpa using this
          · exact ⟨tv2 ++ [name], by
              show st2.visited ++ [name] = st.visited ++ (tv2 ++ [name])
              rw [hvis2, List.append_assoc]⟩
          · exact ⟨tr2 ++ [e], by
              show st2.result ++ [e] = st.result ++ (tr2 ++ [e])
              rw [hres2, List.append_assoc]⟩
          · show name ∈ st2.visited ++ [name]
            exact List.mem_append_right _ (by simp)

theorem visitList_ok_inv {Opt : Type} (items : List (Extension Opt)) (fuel : Nat) :
    ∀ (l : List String) (st st' : SortState Opt),
      SortInv items st → (∀ n ∈ l, n ∈ items.map Extension.name) →
      visitList items fuel l st = Except.ok st' →
      SortInv items st' ∧ (∃ tv, st'.visited = st.visited ++ tv) ∧
        (∃ tr, st'.result = st.result ++ tr) ∧ ∀ n ∈ l, n ∈ st'.visited := by
  intro l
  induction l with
  | nil =>
    intro st st' inv _ h
    rw [visitList_nil] at h
    cases h
    exact ⟨inv, ⟨[], by simp⟩, ⟨[], by simp⟩, by simp⟩
  | cons d rest ihl =>
    intro st st' inv hl h
    rw [visitList_cons] at h
    cases hv : visitOne items fuel d st with
    | error e => rw [hv] at h; cases h
    | ok s =>
      rw [hv] at h
      rcases visit_ok_inv items fuel d st s inv (hl d (List.mem_cons_self _ _)) hv with
        ⟨invs, ⟨tv1, hv1⟩, ⟨tr1, hr1⟩, hdv⟩
      rcases ihl s st' invs (fun n hn => hl n (List.mem_cons_of_mem _ hn)) h with
        ⟨inv', ⟨tv2, hv2⟩, ⟨tr2, hr2⟩, hrestv⟩
      refine ⟨inv', ⟨tv1 ++ tv2, by rw [hv2, hv1, List.append_assoc]⟩,
        ⟨tr1 ++ tr2, by rw [hr2, hr1, List.append_assoc]⟩, ?_⟩
      intro n hn
      rcases List.mem_cons.mp hn with h' | h'
      · subst h'
        rw [hv2]
        exact List.mem_append_left _ hdv
      · exact hrestv n h'

/-! ### Top-level facts about the scheduler -/

theorem sortInv_init {Opt : Type} (items : List (Extension Opt)) :
    SortInv items ⟨[], [], []⟩ := by
  refine ⟨List.nodup_nil, ?_, ?_, rfl, List.nodup_nil, ?_, orderedA_nil⟩ <;> simp

theorem sortExtensions_ok {Opt : Type} {items l : List (Extension Opt)}
    (h : sortExtensions items = Except.ok l) :
    ∃ st' : SortState Opt,
      visitList items (items.length + 1) (items.map Extension.name) ⟨[], [], []⟩ =
        Except.ok st' ∧ l = st'.result ∧ SortInv items st' ∧
        ∀ n ∈ items.map Extension.name, n ∈ st'.visited := by
  unfold sortExtensions at h
  cases hv : visitList items (items.length + 1) (items.map Extension.name) ⟨[], [], []⟩ with
  | error e => rw [hv] at h; cases h
  | ok st' =>
    rw [hv] at h
    cases h
    rcases visitList_ok_inv items (items.length + 1) (items.map Extension.name) ⟨[], [], []⟩
      st' (sortInv_init items) (fun _ hn => hn) hv with ⟨inv, _, _, hall⟩
    exact ⟨st', rfl, rfl, inv, hall⟩

theorem sortExtensions_not_fuel {Opt : Type} (items : List (Extension Opt)) :
    sortExtensions items ≠ Except.error SortErr.fuelExhausted := by
  intro h
  unfold sortExtensions at h
  cases hv : visitList items (items.length + 1) (items.map Extension.name) ⟨[], [], []⟩ with
  | error e =>
    rw [hv] at h
    have he : e = SortErr.fuelExhausted := by cases h; rfl
    subst he
    exact visitList_no_fuel items (items.length + 1) (items.map Extension.name) ⟨[], [], []⟩
      List.nodup_nil (by simp) (fun _ hn => hn) (by simp) hv
  | ok st => rw [hv] at h; cases h

theorem sortExtensions_cyclic {Opt : Type} {items : List (Extension Opt)} {n : String}
    (h : sortExtensions items = Except.error (SortErr.cyclic n)) :
    n ∈ items.map Extension.name ∧ Relation.TransGen (hintEdge items) n n := by
  unfold sortExtensions at h
  cases hv : visitList items (items.length + 1) (items.map Extension.name) ⟨[], [], []⟩ with
  | error e =>
    rw [hv] at h
    have he : e = SortErr.cyclic n := by cases h; rfl
    subst he
    exact visitList_cyclic items (items.length + 1) (items.map Extension.name) ⟨[], [], []⟩
      List.chain'_nil (by simp) (fun _ hn => hn) (by simp) n hv
  | ok st => rw [hv] at h; cases h

theorem name_inj {Opt : Type} {items : List (Extension Opt)}
    (hN : (items.map Extension.name).Nodup) {a b : Extension Opt}
    (ha : a ∈ items) (hb : b ∈ items) (h : a.name = b.name) : a = b :=
  List.inj_on_of_nodup_map hN ha hb h

/-- Claim C1: on every active set whose ordering-hint graph restricted to
active names is acyclic, the scheduler succeeds, and in the result every
active hinted predecessor of an element appears strictly before it (among an
element's earlier entries); hints to inactive names impose nothing and cause
no error site (`hintEdge` already ignores them). -/
theorem scheduler_respects_hints {Opt : Type} (items : List (Extension Opt))
    (hA : ∀ n, ¬ Relation.TransGen (hintEdge items) n n) :
    ∃ l, sortExtensions items = Except.ok l ∧
      ∀ (j : Nat) (hj : j < l.length), ∀ p ∈ (l.get ⟨j, hj⟩).hints,
        hasName items p = true → p ∈ (l.take j).map Extension.name := by
  cases h : sortExtensions items with
  | error e =>
    exfalso
    cases e with
    | cyclic n => exact hA n (sortExtensions_cyclic h).2
    | fuelExhausted => exact sortExtensions_not_fuel items h
  | ok l =>
    refine ⟨l, rfl, ?_⟩
    rcases sortExtensions_ok h with ⟨st', _, hl, inv, _⟩
    have hord : OrderedA items [] l := by rw [hl]; exact inv.ordered
    intro j hj p hp hhn
    rcases orderedA_mem_take items l [] hord j hj p hp hhn with h' | h'
    · cases h'
    · exact h'

theorem activeHints_wAB (x : String) : activeHints [wA, wB] x = [] := by
  unfold activeHints
  cases hf : findExt [wA, wB] x with
  | none => rfl
  | some e =>
    show List.filter (fun d => hasName [wA, wB] d) e.hints = []
    have he : e ∈ [wA, wB] := (findExt_some hf).1
    rcases List.mem_cons.mp he with h | h
    · subst h; rfl
    · simp only [List.mem_singleton] at h
      subst h; rfl

/-- Witness for C1 on the hint-free active set `[wA, wB]`. -/
theorem scheduler_respects_hints_witness :
    (∀ n, ¬ Relation.TransGen (hintEdge [wA, wB]) n n) ∧
    (∃ l, sortExtensions [wA, wB] = Except.ok l ∧
      ∀ (j : Nat) (hj : j < l.length), ∀ p ∈ (l.get ⟨j, hj⟩).hints,
        hasName [wA, wB] p = true → p ∈ (l.take j).map Extension.name) := by
  have noedge : ∀ x y, ¬ hintEdge [wA, wB] x y := by
    intro x y h
    unfold hintEdge at h
    rw [activeHints_wAB] at h
    cases h
  have hA : ∀ n, ¬ Relation.TransGen (hintEdge [wA, wB]) n n := by
    intro n h
    cases h with
    | single h' => exact noedge _ _ h'
    | tail _ h' => exact noedge _ _ h'
  exact ⟨hA, scheduler_respects_hints [wA, wB] hA⟩

/-- Claim C9: whenever the scheduler succeeds on an active set, the returned
list is a permutation of the active set (each active extension exactly once,
nothing else). -/
theorem scheduler_output_permutation {Opt : Type} (items : List (Extension Opt))
    (hN : (items.map Extension.name).Nodup) (l : List (Extension Opt))
    (h : sortExtensions items = Except.ok l) : l.Perm items := by
  rcases sortExtensions_ok h with ⟨st', _, hl, inv, hall⟩
  subst hl
  have hlnames : (st'.result.map Extension.name).Nodup := by
    rw [inv.vis_eq]; exact inv.vis_nodup
  have hlnd : st'.result.Nodup := List.Nodup.of_map Extension.name hlnames
  have hind : items.Nodup := List.Nodup.of_map Extension.name hN
  have hsub1 : st'.result ⊆ items := fun e he => inv.res_sub e he
  have hsub2 : items ⊆ st'.result := by
    intro e he
    have hv : e.name ∈ st'.visited := hall e.name (List.mem_map_of_mem Extension.name he)
    rw [← inv.vis_eq] at hv
    rcases List.mem_map.mp hv with ⟨e', he', hname⟩
    have he'i : e' ∈ items := inv.res_sub e' he'
    have : e' = e := name_inj hN he'i he hname
    exact this ▸ he'
  exact (List.subperm_of_subset hlnd hsub1).antisymm (List.subperm_of_subset hind hsub2)

/-- Witness for C9: the hint-free active set `[wA, wB]` sorts to itself. -/
theorem scheduler_output_permutation_witness :
    (List.map Extension.name [wA, wB]).Nodup ∧
    sortExtensions [wA, wB] = Except.ok [wA, wB] ∧ List.Perm [wA, wB] [wA, wB] :=
  ⟨by decide, rfl, scheduler_output_permutation [wA, wB] (by decide) [wA, wB] rfl⟩

/-- Claim C3: if two active extensions each hint the other as a required
predecessor, the scheduler fails with the circular-ordering error, and the
name it reports belongs to the active set and lies on a genuine hint cycle;
in particular it terminates and drops neither hint. -/
theorem scheduler_mutual_hints_cycle_error {Opt : Type} (items : List (Extension Opt))
    (hN : (items.map Extension.name).Nodup) (a b : Extension Opt)
    (ha : a ∈ items) (hb : b ∈ items) (hab : b.name ∈ a.hints) (hba : a.name ∈ b.hints) :
    ∃ n, sortExtensions items = Except.error (SortErr.cyclic n) ∧
      n ∈ items.map Extension.name ∧ Relation.TransGen (hintEdge items) n n := by
  cases h : sortExtensions items with
  | error e =>
    cases e with
    | cyclic n =>
      rcases sortExtensions_cyclic h with ⟨h1, h2⟩
      exact ⟨n, rfl, h1, h2⟩
    | fuelExhausted => exact absurd h (sortExtensions_not_fuel items)
  | ok l =>
    exfalso
    rcases sortExtensions_ok h with ⟨st', _, hl, inv, hall⟩
    have hord : OrderedA items [] l := by rw [hl]; exact inv.ordered
    have hsubl : ∀ e ∈ l, e ∈ items := by rw [hl]; exact inv.res_sub
    have ord : ∀ (j : Nat) (hj : j < l.length), ∀ p ∈ (l.get ⟨j, hj⟩).hints,
        hasName items p = true → p ∈ (l.take j).map Extension.name := by
      intro j hj p hp hhn
      rcases orderedA_mem_take items l [] hord j hj p hp hhn with h' | h'
      · cases h'
      · exact h'
    have key : ∀ i, ∀ hi : i < l.length, l.get ⟨i, hi⟩ = a → False := by
      intro i
      induction i using Nat.strong_induction_on with
      | _ i ihst =>
        intro hi hget
        have h1 : b.name ∈ (l.take i).map Extension.name := by
          refine ord i hi b.name ?_ (hasName_iff.mpr ⟨b, hb, rfl⟩)
          rw [hget]
          exact hab
        rcases List.mem_map.mp h1 with ⟨eb, hebtake, hebname⟩
        rcases mem_take_get l i eb hebtake with ⟨k, hk, hki, hgetk⟩
        have hebitems : eb ∈ items := hsubl eb (hgetk ▸ List.get_mem l k hk)
        have heb : eb = b := name_inj hN hebitems hb hebname
        have h2 : a.name ∈ (l.take k).map Extension.name := by
          refine ord k hk a.name ?_ (hasName_iff.mpr ⟨a, ha, rfl⟩)
          rw [hgetk, heb]
          exact hba
        rcases List.mem_map.mp h2 with ⟨ea, heatake, heaname⟩
        rcases mem_take_get l k ea heatake with ⟨k2, hk2, hk2k, hgetk2⟩
        have heaitems : ea ∈ items := hsubl ea (hgetk2 ▸ List.get_mem l k2 hk2)
        have hea : ea = a := name_inj hN heaitems ha heaname
        exact ihst k2 (Nat.lt_trans hk2k hki) hk2 (by rw [hgetk2, hea])
    have hmem : a ∈ l := by
      have hv : a.name ∈ st'.visited := hall a.name (List.mem_map_of_mem Extension.name ha)
      rw [← inv.vis_eq] at hv
      rcases List.mem_map.mp hv with ⟨e', he', hname⟩
      have he'i : e' ∈ items := inv.res_sub e' he'
      have he'a : e' = a := name_inj hN he'i ha hname
      rw [hl]
      exact he'a ▸ he'
    rcases List.mem_iff_get.mp hmem with ⟨⟨i, hi⟩, hget⟩
    exact key i hi hget

/-- Witness for C3 on the mutually-hinting active set `[mA, mB]`. -/
theorem scheduler_mutual_hints_cycle_error_witness :
    ((List.map Extension.name [mA, mB]).Nodup ∧ mB.name ∈ mA.hints ∧ mA.name ∈ mB.hints) ∧
    (∃ n, sortExtensions [mA, mB] = Except.error (SortErr.cyclic n) ∧
      n ∈ List.map Extension.name [mA, mB] ∧ Relation.TransGen (hintEdge [mA, mB]) n n) :=
  ⟨⟨by decide, by decide, by decide⟩,
    scheduler_mutual_hints_cycle_error [mA, mB] (by decide) mA mB
      (List.mem_cons_self _ _) (List.mem_cons_of_mem _ (List.mem_cons_self _ _))
      (by decide) (by decide)⟩

/-! ### The validation loop -/

theorem validateAll_ok {Opt : Type} (opt : Opt) : ∀ (l : List (Extension Opt)),
    (∀ x ∈ l, x.validate opt = Except.ok ()) →
    validateAll opt l = (l.map (fun e => Event.validate e.name), none) := by
  intro l
  induction l with
  | nil => intro _; rfl
  | cons e rest ih =>
    intro h
    have he : e.validate opt = Except.ok () := h e (List.mem_cons_self _ _)
    show (match e.validate opt with
      | Except.error msg => ([Event.validate e.name], some msg)
      | Except.ok _ =>
        let r := validateAll opt rest
        (Event.validate e.name :: r.1, r.2)) = _
    rw [he, ih (fun x hx => h x (List.mem_cons_of_mem _ hx))]
    rfl

theorem validateAll_error {Opt : Type} (opt : Opt) :
    ∀ (l1 : List (Extension Opt)) (e : Extension Opt) (l2 : List (Extension Opt)) (m : String),
    (∀ x ∈ l1, x.validate opt = Except.ok ()) → e.validate opt = Except.error m →
    validateAll opt (l1 ++ e :: l2) =
      ((l1 ++ [e]).map (fun x => Event.validate x.name), some m) := by
  intro l1
  induction l1 with
  | nil =>
    intro e l2 m _ he
    show (match e.validate opt with
      | Except.error msg => ([Event.validate e.name], some msg)
      | Except.ok _ =>
        let r := validateAll opt l2
        (Event.validate e.name :: r.1, r.2)) = _
    rw [he]
    rfl
  | cons x rest ih =>
    intro e l2 m h he
    have hx : x.validate opt = Except.ok () := h x (List.mem_cons_self _ _)
    show (match x.validate opt with
      | Except.error msg => ([Event.validate x.name], some msg)
      | Except.ok _ =>
        let r := validateAll opt (rest ++ e :: l2)
        (Event.validate x.name :: r.1, r.2)) = _
    rw [hx, ih e l2 m (fun y hy => h y (List.mem_cons_of_mem _ hy)) he]
    rfl

theorem validateAll_events {Opt : Type} (opt : Opt) : ∀ (l : List (Extension Opt)) (ev : Event),
    ev ∈ (validateAll opt l).1 → ∃ n, ev = Event.validate n := by
  intro l
  induction l with
  | nil => intro ev h; cases h
  | cons e rest ih =>
    intro ev h
    revert h
    show ev ∈ (match e.validate opt with
      | Except.error msg => ([Event.validate e.name], some msg)
      | Except.ok _ =>
        let r := validateAll opt rest
        (Event.validate e.name :: r.1, r.2)).1 → _
    cases hv : e.validate opt with
    | error m =>
      intro h
      simp only [List.mem_singleton] at h
      exact ⟨e.name, h⟩
    | ok u =>
      intro h
      rcases List.mem_cons.mp h with h' | h'
      · exact ⟨e.name, h'⟩
      · exact ih ev h'

/-! ### Characterization of `core.run` -/

theorem coreRun_ok_spec {Opt : Type} (reg : List (Extension Opt)) (opt : Opt) (image : String)
    (command : List String) (order : List (Extension Opt))
    (hres : getActiveExtensions reg opt = Except.ok order)
    (hval : ∀ x ∈ order, x.validate opt = Except.ok ()) :
    coreRun reg opt image command =
      (order.map (fun e => Event.validate e.name) ++ [Event.fromImage image]
        ++ order.map (fun e => Event.mutate e.name)
        ++ [Event.exec (if command.isEmpty then defaultRunCommand else command)], none) := by
  unfold coreRun
  rw [hres]
  dsimp only
  rw [validateAll_ok opt order hval]

theorem coreRun_valfail_spec {Opt : Type} (reg : List (Extension Opt)) (opt : Opt)
    (image : String) (command : List String) (order l1 : List (Extension Opt))
    (e : Extension Opt) (l2 : List (Extension Opt)) (m : String)
    (hres : getActiveExtensions reg opt = Except.ok order)
    (horder : order = l1 ++ e :: l2)
    (h1 : ∀ x ∈ l1, x.validate opt = Except.ok ())
    (he : e.validate opt = Except.error m) :
    coreRun reg opt image command =
      ((l1 ++ [e]).map (fun x => Event.validate x.name), some m) := by
  unfold coreRun
  rw [hres]
  dsimp only
  rw [horder, validateAll_error opt l1 e l2 m h1 he]

/-- Claim C4: `core.run` calls every active extension's validation in list
order before any mutation; a validation failure aborts immediately — the
earlier validations ran, no later validation runs, no mutation event occurs,
and no build request (`fromImage`) is constructed. -/
theorem run_validates_before_mutation {Opt : Type} (reg : List (Extension Opt)) (opt : Opt)
    (image : String) (command : List String) (order : List (Extension Opt))
    (hres : getActiveExtensions reg opt = Except.ok order) :
    ((∀ x ∈ order, x.validate opt = Except.ok ()) →
      coreRun reg opt image command =
        (order.map (fun e => Event.validate e.name) ++ [Event.fromImage image]
          ++ order.map (fun e => Event.mutate e.name)
          ++ [Event.exec (if command.isEmpty then defaultRunCommand else command)], none)) ∧
    (∀ (l1 : List (Extension Opt)) (e : Extension Opt) (l2 : List (Extension Opt)) (m : String),
      order = l1 ++ e :: l2 → (∀ x ∈ l1, x.validate opt = Except.ok ()) →
      e.validate opt = Except.error m →
      coreRun reg opt image command =
        ((l1 ++ [e]).map (fun x => Event.validate x.name), some m)) :=
  ⟨fun hval => coreRun_ok_spec reg opt image command order hres hval,
   fun l1 e l2 m horder h1 he =>
     coreRun_valfail_spec reg opt image command order l1 e l2 m hres horder h1 he⟩

/-- Witness for C4: a one-extension registry whose validation raises; the run
aborts with only that validation event in the trace. -/
theorem run_validates_before_mutation_witness :
    getActiveExtensions [wBad] () = Except.ok [wBad] ∧
    coreRun [wBad] () "ubuntu" ["ls"] = ([Event.validate "bad"], some "boom") := by
  refine ⟨rfl, ?_⟩
  have h := (run_validates_before_mutation [wBad] () "ubuntu" ["ls"] [wBad] rfl).2
    [] wBad [] "boom" rfl (by simp) rfl
  exact h

/-! ### The cli entry point in dry-run mode -/

theorem cliMain_dry_cases {Opt : Type} (reg : List (Extension Opt)) (opt : Opt)
    (image : String) (command : List String) :
    (∃ e, getActiveExtensions reg opt = Except.error e ∧
      cliMain reg opt image command true = ([], some (sortErrMessage e))) ∨
    (∃ order m, getActiveExtensions reg opt = Except.ok order ∧
      (validateAll opt order).2 = some m ∧
      cliMain reg opt image command true =
        (Event.report (order.map Extension.name) :: (validateAll opt order).1, some m)) ∨
    (∃ order, getActiveExtensions reg opt = Except.ok order ∧
      (validateAll opt order).2 = none ∧
      cliMain reg opt image command true =
        (Event.report (order.map Extension.name) :: (validateAll opt order).1
          ++ [Event.reportOrder (order.map Extension.name)], none)) := by
  cases hres : getActiveExtensions reg opt with
  | error e =>
    refine Or.inl ⟨e, rfl, ?_⟩
    unfold cliMain
    rw [hres]
  | ok order =>
    cases hv : (validateAll opt order).2 with
    | some m =>
      refine Or.inr (Or.inl ⟨order, m, rfl, hv, ?_⟩)
      unfold cliMain
      rw [hres]
      dsimp only
      rw [hv]
    | none =>
      refine Or.inr (Or.inr ⟨order, rfl, hv, ?_⟩)
      unfold cliMain
      rw [hres]
      dsimp only
      rw [hv]
      rfl

/-- Claim C5: with the dry-run flag set, the cli never emits a mutation event
and never emits a backend execution event, and (when resolution succeeds) its
output reports the exact resolved extension order. -/
theorem cli_dry_run_no_mutate_no_exec {Opt : Type} (reg : List (Extension Opt)) (opt : Opt)
    (image : String) (command : List String) :
    (∀ n, Event.mutate n ∉ (cliMain reg opt image command true).1) ∧
    (∀ c, Event.exec c ∉ (cliMain reg opt image command true).1) ∧
    (∀ order, getActiveExtensions reg opt = Except.ok order →
      Event.report (order.map Extension.name) ∈ (cliMain reg opt image command true).1) := by
  rcases cliMain_dry_cases reg opt image command with
    ⟨e, hres, heq⟩ | ⟨order0, m, hres, hv, heq⟩ | ⟨order0, hres, hv, heq⟩
  · rw [heq]
    refine ⟨by simp, by simp, ?_⟩
    intro order h
    rw [hres] at h
    cases h
  · rw [heq]
    refine ⟨?_, ?_, ?_⟩
    · intro n hmem
      rcases List.mem_cons.mp hmem with h | h
      · exact Event.noConfusion h
      · rcases validateAll_events opt order0 _ h with ⟨n', hn'⟩
        exact Event.noConfusion hn'
    · intro c hmem
      rcases List.mem_cons.mp hmem with h | h
      · exact Event.noConfusion h
      · rcases validateAll_events opt order0 _ h with ⟨n', hn'⟩
        exact Event.noConfusion hn'
    · intro order h
      rw [hres] at h
      injection h with h'
      subst h'
      exact List.mem_cons_self _ _
  · rw [heq]
    refine ⟨?_, ?_, ?_⟩
    · intro n hmem
      rcases List.mem_cons.mp hmem with h | h
      · exact Event.noConfusion h
      · rcases List.mem_append.mp h with h' | h'
        · rcases validateAll_events opt order0 _ h' with ⟨n', hn'⟩
          exact Event.noConfusion hn'
        · simp only [List.mem_singleton] at h'
          exact Event.noConfusion h'
    · intro c hmem
      rcases List.mem_cons.mp hmem with h | h
      · exact Event.noConfusion h
      · rcases List.mem_append.mp h with h' | h'
        · rcases validateAll_events opt order0 _ h' with ⟨n', hn'⟩
          exact Event.noConfusion hn'
        · simp only [List.mem_singleton] at h'
          exact Event.noConfusion h'
    · intro order h
      rw [hres] at h
      injection h with h'
      subst h'
      exact List.mem_cons_self _ _

/-- Witness for C5 on the one-extension registry `[basicExt]`. -/
theorem cli_dry_run_no_mutate_no_exec_witness :
    (∀ n, Event.mutate n ∉ (cliMain [basicExt] ([] : List String) "ubuntu" [] true).1) ∧
    (∀ c, Event.exec c ∉ (cliMain [basicExt] ([] : List String) "ubuntu" [] true).1) ∧
    Event.report ["basic"] ∈ (cliMain [basicExt] ([] : List String) "ubuntu" [] true).1 := by
  obtain ⟨h1, h2, h3⟩ := cli_dry_run_no_mutate_no_exec [basicExt] ([] : List String) "ubuntu" []
  exact ⟨h1, h2, h3 [basicExt] rfl⟩

/-- Counterexample for C6: on a concrete registry with zero command tokens,
`core.run` executes the fixed command `/bin/bash -c "echo 'No command
specified'"` — and `build_and_run` a bare non-interactive `/bin/bash` — not
an interactive shell. -/
theorem run_default_not_interactive_cex :
    (coreRun [basicExt] ([] : List String) "ubuntu" []).1 =
      [Event.validate "basic", Event.fromImage "ubuntu", Event.mutate "basic",
        Event.exec ["/bin/bash", "-c", "echo \x27No command specified\x27"]] ∧
    buildAndRun [basicExt] "ubuntu" [] =
      [Event.fromImage "ubuntu", Event.mutate "basic", Event.exec ["/bin/bash"]] ∧
    (["/bin/bash", "-c", "echo \x27No command specified\x27"] : List String) ≠ ["/bin/bash"] :=
  ⟨rfl, rfl, by decide⟩

/-- Claim C6 (amended): when zero command tokens are supplied, `core.run`
(used by cli.py) executes the fixed echo command `/bin/bash -c "echo 'No
command specified'"` against the final build request, and `build_and_run`
(used by main.py) executes a bare non-interactive `/bin/bash`; neither is an
interactive shell. -/
theorem run_default_command_is_echo {Opt : Type} (reg : List (Extension Opt)) (opt : Opt)
    (image : String) (order : List (Extension Opt))
    (hres : getActiveExtensions reg opt = Except.ok order)
    (hval : ∀ x ∈ order, x.validate opt = Except.ok ()) :
    Event.exec defaultRunCommand ∈ (coreRun reg opt image []).1 ∧
    Event.exec defaultShellCommand ∈ buildAndRun order image [] := by
  constructor
  · rw [coreRun_ok_spec reg opt image [] order hres hval]
    simp
  · unfold buildAndRun
    simp

/-- Witness for C6 (amended) on the one-extension registry `[basicExt]`. -/
theorem run_default_command_is_echo_witness :
    Event.exec defaultRunCommand ∈ (coreRun [basicExt] ([] : List String) "ubuntu" []).1 ∧
    Event.exec defaultShellCommand ∈ buildAndRun [basicExt] "ubuntu" [] :=
  run_default_command_is_echo [basicExt] ([] : List String) "ubuntu" [basicExt] rfl
    (by intro x hx; simp only [List.mem_singleton] at hx; subst hx; rfl)

/-! ### Registration -/

theorem findExt_replace {Opt : Type} : ∀ (reg : List (Extension Opt)) (e : Extension Opt),
    hasName reg e.name = true → findExt (replaceByName reg e) e.name = some e := by
  intro reg
  induction reg with
  | nil => intro e h; simp [hasName] at h
  | cons x rest ih =>
    intro e h
    show findExt (if x.name == e.name then e :: rest else x :: replaceByName rest e) e.name =
      some e
    by_cases hx : (x.name == e.name) = true
    · rw [if_pos hx]
      exact List.find?_cons_of_pos _ (by simp)
    · rw [if_neg hx]
      show List.find? (fun y => y.name == e.name) (x :: replaceByName rest e) = some e
      have hstep : List.find? (fun y => y.name == e.name) (x :: replaceByName rest e) =
          List.find? (fun y => y.name == e.name) (replaceByName rest e) :=
        List.find?_cons_of_neg _ hx
      rw [hstep]
      apply ih
      have := hasName_iff.mp h
      rcases this with ⟨y, hy, hyn⟩
      rcases List.mem_cons.mp hy with h' | h'
      · exfalso
        subst h'
        exact hx (by simp [hyn])
      · exact hasName_iff.mpr ⟨y, h', hyn⟩

theorem findExt_append_self {Opt : Type} : ∀ (reg : List (Extension Opt)) (e : Extension Opt),
    (∀ x ∈ reg, x.name ≠ e.name) → findExt (reg ++ [e]) e.name = some e := by
  intro reg
  induction reg with
  | nil =>
    intro e _
    exact List.find?_cons_of_pos _ (by simp)
  | cons x rest ih =>
    intro e h
    show List.find? (fun y => y.name == e.name) (x :: (rest ++ [e])) = some e
    have hstep : List.find? (fun y => y.name == e.name) (x :: (rest ++ [e])) =
        List.find? (fun y => y.name == e.name) (rest ++ [e]) :=
      List.find?_cons_of_neg _ (by simp [h x (List.mem_cons_self _ _)])
    rw [hstep]
    exact ih e (fun y hy => h y (List.mem_cons_of_mem _ hy))

/-- Counterexample for C7: registering a second extension under the name "a"
does not fail — it silently replaces the first registration, and lookup
afterwards yields the second extension, not the first. -/
theorem register_duplicate_overwrites_cex :
    findExt (registerExtension (registerExtension [] dupA1) dupA2) "a" = some dupA2 ∧
    dupA2 ≠ dupA1 :=
  ⟨rfl, fun h => absurd (congrArg Extension.deps h) (by decide)⟩

/-- Claim C7 (amended): registering an extension under an already-present
name deterministically overwrites the earlier registration — looking the name
up afterwards yields the newly registered extension — and registration never
fails (it is a total dict assignment). -/
theorem register_duplicate_overwrites {Opt : Type} (reg : List (Extension Opt))
    (e : Extension Opt) : findExt (registerExtension reg e) e.name = some e := by
  unfold registerExtension
  by_cases h : hasName reg e.name = true
  · rw [if_pos h]
    exact findExt_replace reg e h
  · rw [if_neg h]
    refine findExt_append_self reg e ?_
    intro x hx hxn
    exact h (hasName_iff.mpr ⟨x, hx, hxn⟩)
